import Mathlib

/-!
Verification of the `netmonrs` terminal network monitor (src/main.rs).

Strings are modelled as `List Char` (`Str`).  Rust's byte indices are
replaced by character indices; every slice taken by the program lies on a
character boundary (the patterns involved are ASCII), so the two views
agree.
-/

abbrev Str := List Char

def str (s : String) : Str := s.data

/-- Model of Rust `char::is_whitespace` (the Unicode `White_Space` property). -/
def isRustWhitespace (c : Char) : Bool :=
  c.toNat ∈ [0x09, 0x0A, 0x0B, 0x0C, 0x0D, 0x20, 0x85, 0xA0, 0x1680,
    0x2000, 0x2001, 0x2002, 0x2003, 0x2004, 0x2005, 0x2006, 0x2007,
    0x2008, 0x2009, 0x200A, 0x2028, 0x2029, 0x202F, 0x205F, 0x3000]

/-- Split a character list at every occurrence of `sep` (empty pieces kept). -/
def splitOnChar (sep : Char) : Str → List Str
  | [] => [[]]
  | c :: t =>
    if c = sep then [] :: splitOnChar sep t
    else
      match splitOnChar sep t with
      | [] => [[c]]
      | p :: ps => (c :: p) :: ps

/-- Strip one trailing `'\r'`, as Rust `str::lines` does for `"\r\n"` endings. -/
def stripCr (p : Str) : Str :=
  if p.getLast? = some '\r' then p.dropLast else p

/-- Model of Rust `str::lines`: split at `'\n'`, strip a `'\r'` left at the end
of each piece that was terminated by `'\n'`, and drop the final piece when it
is empty (i.e. when the text ends with a line terminator). -/
def rustLines (l : Str) : List Str :=
  match splitOnChar '\n' l with
  | [] => []
  | ps =>
    let init := ps.dropLast.map stripCr
    match ps.getLast? with
    | some last => if last = [] then init else init ++ [last]
    | none => init

/-- First index at which `pat` occurs as a contiguous sublist, like
Rust `str::find` with a literal pattern. -/
def findSub (pat : Str) : Str → Option Nat
  | [] => if pat.isPrefixOf ([] : Str) then some 0 else none
  | c :: t =>
    if pat.isPrefixOf (c :: t) then some 0
    else (findSub pat t).map (· + 1)

/-- The per-line endpoint extraction of `run_app` (src/main.rs:182-206):
find the first `"->"`, take the rest of the line two characters later, cut
at the first whitespace-or-`':'` character, reject candidates that are empty
or contain neither `'.'` nor `':'`, and strip surrounding `[` `]`. -/
def lineEndpoint (line : Str) : Option Str :=
  match findSub ['-', '>'] line with
  | none => none
  | some pos =>
    let ipStart := pos + 2
    if ipStart < line.length then
      let ipPart := line.drop ipStart
      let ipEnd := (ipPart.findIdx? (fun c => isRustWhitespace c || c = ':')).getD ipPart.length
      let ip := ipPart.take ipEnd
      if ip ≠ [] ∧ (ip.contains '.' ∨ ip.contains ':') then
        some (if ip.head? = some '[' ∧ ip.getLast? = some ']' then (ip.drop 1).dropLast else ip)
      else none
    else none

/-- The Endpoint Extractor of `run_app`: skip the first line of the socket
tool's output, extract an endpoint from each remaining line. -/
def extract (text : Str) : List Str :=
  ((rustLines text).drop 1).filterMap lineEndpoint

/-- Reference per-line rule, written from the words of the §4.1 algorithm:
take the substring starting two characters after the first `"->"`, cut it at
the first whitespace or `':'` character (or take it all if none), reject the
candidate if it is empty or contains neither `'.'` nor `':'`, strip
surrounding `'['` and `']'` if the candidate both starts with `'['` and ends
with `']'`. -/
def lineEndpointSpec (line : Str) : Option Str :=
  match findSub ['-', '>'] line with
  | none => none
  | some pos =>
    let tail := line.drop (pos + 2)
    let cut := (tail.findIdx? (fun c => isRustWhitespace c || c = ':')).getD tail.length
    let cand := tail.take cut
    if cand = [] ∨ (¬ cand.contains '.' ∧ ¬ cand.contains ':') then none
    else some (if cand.head? = some '[' ∧ cand.getLast? = some ']' then (cand.drop 1).dropLast else cand)

/-- Reference §4.1 algorithm: skip the first line, apply the per-line rule. -/
def extractSpec (text : Str) : List Str :=
  ((rustLines text).drop 1).filterMap lineEndpointSpec

theorem accept_eq (cand k : Str) :
    (if cand ≠ [] ∧ (cand.contains '.' ∨ cand.contains ':') then some k else none) =
    (if cand = [] ∨ (¬ cand.contains '.' ∧ ¬ cand.contains ':') then none else some k) := by
  by_cases h1 : cand = [] <;>
    by_cases h2 : '.' ∈ cand <;>
      by_cases h3 : ':' ∈ cand <;>
        simp [h1, h2, h3]

theorem lineEndpoint_eq_spec (line : Str) : lineEndpoint line = lineEndpointSpec line := by
  unfold lineEndpoint lineEndpointSpec
  cases h : findSub ['-', '>'] line with
  | none => rfl
  | some pos =>
    by_cases hlt : pos + 2 < line.length
    · simp only [hlt, if_true]
      exact accept_eq _ _
    · have hdrop : line.drop (pos + 2) = [] := List.drop_eq_nil_of_le (by omega)
      simp [hlt, hdrop]

/-- C1: for every input text, the set of endpoints produced by the extractor
in `run_app` equals the set produced by the reference §4.1 algorithm. -/
theorem extract_eq_spec (text : Str) : (extract text).toFinset = (extractSpec text).toFinset := by
  unfold extract extractSpec
  congr 1
  exact List.filterMap_congr (fun line _ => lineEndpoint_eq_spec line)

theorem mem_take_findIdx_false (p : Char → Bool) (l : Str) :
    ∀ c ∈ l.take ((l.findIdx? p).getD l.length), p c = false := by
  intro c hc
  cases h : l.findIdx? p with
  | none =>
    rw [h] at hc
    simp only [Option.getD_none, List.take_length] at hc
    exact List.findIdx?_eq_none_iff.mp h c hc
  | some i =>
    rw [h] at hc
    simp only [Option.getD_some] at hc
    obtain ⟨hlen, hp, hbefore⟩ := List.findIdx?_eq_some_iff_getElem.mp h
    obtain ⟨j, hj, rfl⟩ := List.getElem_of_mem hc
    have hjlt : j < i := by
      have := List.length_take i l
      omega
    have := hbefore j hjlt
    simpa using this

theorem cand_props (cand s : Str) (hne : cand ≠ [])
    (hdotcolon : cand.contains '.' = true ∨ cand.contains ':' = true)
    (hnows : ∀ c ∈ cand, (isRustWhitespace c || decide (c = ':')) = false)
    (h : (if cand.head? = some '[' ∧ cand.getLast? = some ']'
          then (cand.drop 1).dropLast else cand) = s) :
    ':' ∉ s ∧ '.' ∈ s := by
  have hnocolon : ':' ∉ cand := by
    intro hmem
    have := hnows ':' hmem
    simp at this
  have hdot : '.' ∈ cand := by
    rcases hdotcolon with hd | hcol
    · simpa using hd
    · exact absurd (by simpa using hcol) hnocolon
  split at h
  case isFalse =>
    subst h; exact ⟨hnocolon, hdot⟩
  case isTrue hbr =>
    obtain ⟨hhead, hlast⟩ := hbr
    obtain ⟨t, rfl⟩ : ∃ t, cand = '[' :: t := by
      cases cand with
      | nil => simp at hhead
      | cons a t =>
        simp only [List.head?_cons, Option.some_inj] at hhead
        exact ⟨t, by rw [hhead]⟩
    have htne : t ≠ [] := by
      rintro rfl
      simp at hlast
    have hlastt : t.getLast htne = ']' := by
      have h2 : ('[' :: t).getLast (by simp) = ']' := by
        have h3 := List.getLast?_eq_getLast ('[' :: t) (by simp)
        rw [hlast] at h3
        exact (Option.some_inj.mp h3.symm)
      rwa [List.getLast_cons htne] at h2
    have hdecomp : t.dropLast ++ [']'] = t := by
      conv_rhs => rw [← List.dropLast_append_getLast htne]
      rw [hlastt]
    have hs : s = t.dropLast := by
      rw [← h]
      simp
    subst hs
    constructor
    · intro hmem
      exact hnocolon (List.mem_cons_of_mem _ (List.dropLast_subset t hmem))
    · rcases List.mem_cons.mp hdot with heq | hmem
      · exact absurd heq (by decide)
      · rw [← hdecomp] at hmem
        rcases List.mem_append.mp hmem with hm | hm
        · exact hm
        · simp at hm

theorem lineEndpoint_some (line s : Str) (h : lineEndpoint line = some s) :
    ':' ∉ s ∧ '.' ∈ s := by
  unfold lineEndpoint at h
  cases hfind : findSub ['-', '>'] line with
  | none => rw [hfind] at h; exact absurd h (by simp)
  | some pos =>
    rw [hfind] at h
    simp only at h
    split at h
    case isFalse => exact absurd h (by simp)
    case isTrue hlt =>
      split at h
      case isFalse => exact absurd h (by simp)
      case isTrue hcond =>
        rw [Option.some_inj] at h
        exact cand_props _ _ hcond.1 hcond.2 (mem_take_findIdx_false _ _) h

/-- C9: for every input to the Endpoint Extractor, no returned endpoint
contains a colon (the candidate is cut at the first `':'` before the
`'.'`-or-`':'` filter), so every returned endpoint contains `'.'`; hence no
IPv6 endpoint (whose text always contains `':'`) is ever emitted. -/
theorem extract_no_colon (text s : Str) (h : s ∈ extract text) :
    ':' ∉ s ∧ '.' ∈ s := by
  unfold extract at h
  obtain ⟨line, _, hline⟩ := List.mem_filterMap.mp h
  exact lineEndpoint_some line s hline

theorem extract_no_colon_witness :
    str "1.2.3.4" ∈ extract (str "HDR\nx->1.2.3.4:80 y") ∧
      (':' ∉ str "1.2.3.4" ∧ '.' ∈ str "1.2.3.4") :=
  ⟨by decide, extract_no_colon (str "HDR\nx->1.2.3.4:80 y") (str "1.2.3.4") (by decide)⟩

/-- Rust `str::contains` with a literal pattern. -/
def containsSeq (pat l : Str) : Bool := (findSub pat l).isSome

/-- C4 counterexample: there is NO input whose second line contains the
fragment `"-> [2001:db8::1]:443 "` for which the extractor returns a set
containing `"2001:db8::1"` — extractor outputs never contain a colon. -/
theorem c4_counterexample :
    ¬ ∃ text : Str,
      (∃ l, (rustLines text)[1]? = some l ∧ containsSeq (str "-> [2001:db8::1]:443 ") l) ∧
        str "2001:db8::1" ∈ (extract text).toFinset := by
  rintro ⟨text, -, hmem⟩
  rw [List.mem_toFinset] at hmem
  obtain ⟨line, -, hline⟩ := List.mem_filterMap.mp hmem
  exact (lineEndpoint_some line _ hline).1 (by decide)

/-- C4 (amended): for every input whose second line contains the fragment
`"-> [2001:db8::1]:443 "`, the extracted set does not contain
`"2001:db8::1"`; the candidate is cut at the first `':'`, so bracketed IPv6
endpoints are dropped rather than bracket-stripped. -/
theorem c4_amended (text l : Str) (hsecond : (rustLines text)[1]? = some l)
    (hfrag : containsSeq (str "-> [2001:db8::1]:443 ") l = true) :
    str "2001:db8::1" ∉ (extract text).toFinset := by
  intro hmem
  rw [List.mem_toFinset] at hmem
  obtain ⟨line, -, hline⟩ := List.mem_filterMap.mp hmem
  exact (lineEndpoint_some line _ hline).1 (by decide)

theorem c4_amended_witness :
    str "2001:db8::1" ∉
      (extract (str "COMMAND\nfoo 10 u IPv6 TCP [::1]:5 -> [2001:db8::1]:443 (ESTABLISHED)")).toFinset :=
  c4_amended (str "COMMAND\nfoo 10 u IPv6 TCP [::1]:5 -> [2001:db8::1]:443 (ESTABLISHED)")
    (str "foo 10 u IPv6 TCP [::1]:5 -> [2001:db8::1]:443 (ESTABLISHED)")
    (by decide) (by decide)

/-- Model of Rust `str::split_whitespace`: the maximal runs of
non-whitespace characters, in order. -/
def splitWs : Str → List Str
  | [] => []
  | c :: t =>
    if isRustWhitespace c then splitWs t
    else (c :: t.takeWhile (fun d => !isRustWhitespace d)) ::
      splitWs (t.dropWhile (fun d => !isRustWhitespace d))
termination_by l => l.length
decreasing_by
  · simp only [List.length_cons]
    omega
  · have hle := (List.dropWhile_sublist (l := t) (fun d => !isRustWhitespace d)).length_le
    simp only [List.length_cons]
    omega

/-- The two UI panes (src/main.rs:32-35). -/
inductive Focus
  | ActiveList
  | HistoryList
deriving DecidableEq

/-- The View-Model state (struct `App`, src/main.rs:48-59).  `ListState` is
modelled by its `selected` field, an `Option Nat`. -/
structure App where
  target_name : Str
  active_connections : List Str
  history_log : List Str
  seen_ips : Finset Str
  last_status_msg : Str
  focus : Focus
  active_state : Option Nat
  history_state : Option Nat
deriving DecidableEq

/-- The seen-IP set computed by `App::update_seen_ips` (src/main.rs:111-127)
from a history log: for each of the last 1000 entries (or all, if fewer),
the last `split_whitespace` token, if any and non-empty. -/
def seenIpsOf (history : List Str) : Finset Str :=
  let historyToCheck :=
    if 1000 < history.length then history.drop (history.length - 1000) else history
  (historyToCheck.filterMap (fun h =>
    match (splitWs h).getLast? with
    | some ip => if ip = [] then none else some ip
    | none => none)).toFinset

/-- `App::update_seen_ips` (src/main.rs:111-127). -/
def App.update_seen_ips (app : App) : App :=
  { app with seen_ips := seenIpsOf app.history_log }

/-- The seen-IP set in the words of the spec: the set of last
whitespace-delimited tokens of the last `min(len, 1000)` history entries,
excluding empty tokens. -/
def seenIpsSpec (history : List Str) : Finset Str :=
  (((history.drop (history.length - min history.length 1000)).filterMap
      (fun h => (splitWs h).getLast?)).filter (fun t => !t.isEmpty)).toFinset

theorem filterMap_last_eq_filter (l : List Str) :
    l.filterMap (fun h =>
      match (splitWs h).getLast? with
      | some ip => if ip = [] then none else some ip
      | none => none) =
    (l.filterMap (fun h => (splitWs h).getLast?)).filter (fun t => !t.isEmpty) := by
  induction l with
  | nil => rfl
  | cons h t ih =>
    simp only [List.filterMap_cons]
    cases hlast : (splitWs h).getLast? with
    | none => simpa using ih
    | some ip =>
      by_cases hip : ip = []
      · subst hip
        simpa using ih
      · have : ip.isEmpty = false := by
          simpa [List.isEmpty_iff] using hip
        simp [hip, this, ih]

theorem seenIpsOf_eq_spec (history : List Str) : seenIpsOf history = seenIpsSpec history := by
  unfold seenIpsOf seenIpsSpec
  by_cases hlen : 1000 < history.length
  · have hmin : min history.length 1000 = 1000 := by omega
    simp only [hlen, if_true, hmin, filterMap_last_eq_filter]
  · have hmin : min history.length 1000 = history.length := by omega
    simp only [hlen, if_false, hmin, filterMap_last_eq_filter, Nat.sub_self, List.drop_zero]

/-- The decimal digit character for `d < 10`. -/
def digitChar (d : Nat) : Char := Char.ofNat (48 + d)

/-- Fuel-driven decimal printer (most significant digit first). -/
def decAux : Nat → Nat → List Char → List Char
  | 0, _, acc => acc
  | fuel + 1, n, acc =>
    if n < 10 then digitChar n :: acc
    else decAux fuel (n / 10) (digitChar (n % 10) :: acc)

/-- Decimal representation of a natural number as characters. -/
def dec (n : Nat) : List Char := decAux (n + 1) n []

theorem decAux_acc (fuel : Nat) : ∀ n acc, decAux fuel n acc = decAux fuel n [] ++ acc := by
  induction fuel with
  | zero => intro n acc; rfl
  | succ fuel ih =>
    intro n acc
    by_cases h : n < 10
    · simp [decAux, h]
    · simp only [decAux, h, if_false]
      rw [ih (n / 10) (digitChar (n % 10) :: acc), ih (n / 10) [digitChar (n % 10)]]
      simp

theorem decAux_fuel (n : Nat) : ∀ fuel fuel', n < fuel → n < fuel' →
    decAux fuel n [] = decAux fuel' n [] := by
  induction n using Nat.strong_induction_on with
  | _ n ih =>
    intro fuel fuel' hf hf'
    match fuel, fuel' with
    | f + 1, f' + 1 =>
      by_cases h : n < 10
      · simp [decAux, h]
      · simp only [decAux, h, if_false]
        rw [decAux_acc f, decAux_acc f']
        have hdiv : n / 10 < n := Nat.div_lt_self (by omega) (by omega)
        rw [ih (n / 10) hdiv f f' (by omega) (by omega)]

theorem dec_lt10 (n : Nat) (h : n < 10) : dec n = [digitChar n] := by
  simp [dec, decAux, h]

theorem dec_ge10 (n : Nat) (h : 10 ≤ n) : dec n = dec (n / 10) ++ [digitChar (n % 10)] := by
  have hdiv : n / 10 < n := Nat.div_lt_self (by omega) (by omega)
  unfold dec
  conv_lhs => rw [show n + 1 = n + 1 by rfl]
  rw [show decAux (n + 1) n [] = decAux n (n / 10) [digitChar (n % 10)] by
    simp [decAux, Nat.not_lt.mpr h]]
  rw [decAux_acc, decAux_fuel (n / 10) n (n / 10 + 1) (by omega) (by omega)]

theorem dec_ne_nil (n : Nat) : dec n ≠ [] := by
  by_cases h : n < 10
  · rw [dec_lt10 n h]; simp
  · rw [dec_ge10 n (by omega)]; simp

theorem digitChar_toNat (d : Nat) (h : d < 10) : (digitChar d).toNat = 48 + d := by
  interval_cases d <;> decide

theorem digitChar_inj (d e : Nat) (hd : d < 10) (he : e < 10)
    (h : digitChar d = digitChar e) : d = e := by
  have := congrArg Char.toNat h
  rw [digitChar_toNat d hd, digitChar_toNat e he] at this
  omega

theorem dec_mem_digit (n : Nat) : ∀ c ∈ dec n, ∃ d, d < 10 ∧ c = digitChar d := by
  induction n using Nat.strong_induction_on with
  | _ n ih =>
    intro c hc
    by_cases h : n < 10
    · rw [dec_lt10 n h] at hc
      simp at hc
      exact ⟨n, h, hc⟩
    · rw [dec_ge10 n (by omega)] at hc
      rcases List.mem_append.mp hc with hm | hm
      · exact ih (n / 10) (Nat.div_lt_self (by omega) (by omega)) c hm
      · simp at hm
        exact ⟨n % 10, by omega, hm⟩

theorem dec_inj : ∀ m n : Nat, dec m = dec n → m = n := by
  intro m
  induction m using Nat.strong_induction_on with
  | _ m ih =>
    intro n h
    by_cases hm : m < 10 <;> by_cases hn : n < 10
    · rw [dec_lt10 m hm, dec_lt10 n hn] at h
      exact digitChar_inj m n hm hn (by simpa using h)
    · rw [dec_lt10 m hm, dec_ge10 n (by omega)] at h
      have h1 := congrArg List.length h
      have h2 := (dec_ne_nil (n / 10))
      simp [List.length_append] at h1
      cases hd : dec (n / 10) with
      | nil => exact absurd hd h2
      | cons a t => rw [hd] at h1; simp at h1
    · rw [dec_ge10 m (by omega), dec_lt10 n hn] at h
      have h1 := congrArg List.length h
      have h2 := (dec_ne_nil (m / 10))
      simp [List.length_append] at h1
      cases hd : dec (m / 10) with
      | nil => exact absurd hd h2
      | cons a t => rw [hd] at h1; simp at h1
    · rw [dec_ge10 m (by omega), dec_ge10 n (by omega)] at h
      have hlen : (dec (m / 10)).length = (dec (n / 10)).length := by
        have h1 := congrArg List.length h
        simp [List.length_append] at h1
        omega
      obtain ⟨h1, h2⟩ := List.append_inj h hlen
      have hdiv := ih (m / 10) (Nat.div_lt_self (by omega) (by omega)) (n / 10) h1
      have hmod : m % 10 = n % 10 := by
        have := List.head_eq_of_cons_eq h2
        exact digitChar_inj _ _ (by omega) (by omega) this
      omega

theorem splitWs_nil : splitWs [] = [] := by simp [splitWs]

theorem splitWs_cons_ws (c : Char) (t : Str) (h : isRustWhitespace c = true) :
    splitWs (c :: t) = splitWs t := by
  rw [splitWs]
  simp [h]

theorem splitWs_cons_nonws (c : Char) (t : Str) (h : isRustWhitespace c = false) :
    splitWs (c :: t) = (c :: t.takeWhile (fun d => !isRustWhitespace d)) ::
      splitWs (t.dropWhile (fun d => !isRustWhitespace d)) := by
  rw [splitWs]
  simp [h]

theorem splitWs_all_nonws (l : Str) (hne : l ≠ [])
    (hall : ∀ c ∈ l, isRustWhitespace c = false) : splitWs l = [l] := by
  cases l with
  | nil => exact absurd rfl hne
  | cons c t =>
    rw [splitWs_cons_nonws c t (hall c (by simp))]
    have htake : t.takeWhile (fun d => !isRustWhitespace d) = t :=
      List.takeWhile_eq_self_iff.mpr (fun x hx => by simp [hall x (List.mem_cons_of_mem _ hx)])
    have hdrop : t.dropWhile (fun d => !isRustWhitespace d) = [] :=
      List.dropWhile_eq_nil_iff.mpr (fun x hx => by simp [hall x (List.mem_cons_of_mem _ hx)])
    rw [htake, hdrop, splitWs_nil]

theorem mem_takeWhile_pred (p : Char → Bool) (l : Str) :
    ∀ x ∈ l.takeWhile p, p x = true := by
  induction l with
  | nil => simp
  | cons c t ih =>
    by_cases h : p c = true
    · rw [List.takeWhile_cons_of_pos h]
      intro x hx
      rcases List.mem_cons.mp hx with rfl | hx
      · exact h
      · exact ih x hx
    · rw [List.takeWhile_cons_of_neg h]
      simp

theorem splitWs_append_ws (w : Char) (hw : isRustWhitespace w = true) (b : Str) :
    ∀ l, splitWs (l ++ w :: b) = splitWs l ++ splitWs b := by
  suffices H : ∀ N l, l.length ≤ N → splitWs (l ++ w :: b) = splitWs l ++ splitWs b by
    intro l
    exact H l.length l le_rfl
  intro N
  induction N with
  | zero =>
    intro l hl
    have : l = [] := List.length_eq_zero.mp (Nat.le_antisymm hl (Nat.zero_le _))
    subst this
    rw [List.nil_append, splitWs_cons_ws w b hw, splitWs_nil, List.nil_append]
  | succ N ih =>
    intro l hl
    cases l with
    | nil => rw [List.nil_append, splitWs_cons_ws w b hw, splitWs_nil, List.nil_append]
    | cons c t =>
      have hlt : t.length ≤ N := by
        simp only [List.length_cons] at hl
        omega
      by_cases hc : isRustWhitespace c = true
      · rw [List.cons_append, splitWs_cons_ws c _ hc, splitWs_cons_ws c t hc]
        exact ih t hlt
      · have hc' : isRustWhitespace c = false := by simpa using hc
        rw [List.cons_append, splitWs_cons_nonws c _ hc', splitWs_cons_nonws c t hc']
        by_cases hall : ∀ x ∈ t, (!isRustWhitespace x) = true
        · have htake : t.takeWhile (fun d => !isRustWhitespace d) = t :=
            List.takeWhile_eq_self_iff.mpr hall
          have hdrop : t.dropWhile (fun d => !isRustWhitespace d) = [] :=
            List.dropWhile_eq_nil_iff.mpr hall
          rw [List.takeWhile_append_of_pos hall, List.dropWhile_append_of_pos hall]
          rw [List.takeWhile_cons_of_neg (by simp [hw]), List.dropWhile_cons_of_neg (by simp [hw])]
          rw [splitWs_cons_ws w b hw, htake, hdrop, splitWs_nil]
          simp
        · have hrne : t.dropWhile (fun d => !isRustWhitespace d) ≠ [] := by
            intro h0
            exact hall (List.dropWhile_eq_nil_iff.mp h0)
          obtain ⟨w', t2, hr2⟩ : ∃ w' t2,
              t.dropWhile (fun d => !isRustWhitespace d) = w' :: t2 := by
            cases hcase : t.dropWhile (fun d => !isRustWhitespace d) with
            | nil => exact absurd hcase hrne
            | cons a u => exact ⟨a, u, rfl⟩
          have hw' : isRustWhitespace w' = true := by
            have hh := List.head_dropWhile_not (fun d => !isRustWhitespace d) t hrne
            have hhead : (t.dropWhile (fun d => !isRustWhitespace d)).head hrne = w' := by
              simp [hr2]
            rw [hhead] at hh
            simpa using hh
          have ht1all : ∀ x ∈ t.takeWhile (fun d => !isRustWhitespace d),
              (!isRustWhitespace x) = true :=
            fun x hx => mem_takeWhile_pred _ t x hx
          have hsplit : t ++ w :: b = t.takeWhile (fun d => !isRustWhitespace d) ++
              (t.dropWhile (fun d => !isRustWhitespace d) ++ w :: b) := by
            rw [← List.append_assoc, List.takeWhile_append_dropWhile]
          have htake1 : (t ++ w :: b).takeWhile (fun d => !isRustWhitespace d) =
              t.takeWhile (fun d => !isRustWhitespace d) := by
            rw [hsplit, List.takeWhile_append_of_pos ht1all, hr2, List.cons_append,
              List.takeWhile_cons_of_neg (by simp [hw']), List.append_nil]
          have hdrop1 : (t ++ w :: b).dropWhile (fun d => !isRustWhitespace d) =
              w' :: (t2 ++ w :: b) := by
            rw [hsplit, List.dropWhile_append_of_pos ht1all, hr2, List.cons_append,
              List.dropWhile_cons_of_neg (by simp [hw'])]
          have hlen2 : t2.length ≤ N := by
            have h1 := congrArg List.length (List.takeWhile_append_dropWhile
              (fun d => !isRustWhitespace d) t)
            rw [hr2] at h1
            simp only [List.length_append, List.length_cons] at h1
            omega
          rw [htake1, hdrop1, splitWs_cons_ws w' _ hw', ih t2 hlen2, hr2,
            splitWs_cons_ws w' t2 hw']
          simp

/-- Two-digit zero-padded formatting (Rust `{:02}`), used only to build the
scenario timestamps. -/
def pad2 (n : Nat) : Str := if n < 10 then '0' :: dec n else dec n

/-- Scenario history entry `"[12:00:NN] 192.168.1.N"` from the spec's
seen-IPs test (mirrors the repository test `test_update_seen_ips_limited_history`). -/
def scenarioEntry (n : Nat) : Str := str "[12:00:" ++ pad2 n ++ str "] 192.168.1." ++ dec n

/-- The 1001 scenario entries for N in 0..=1000. -/
def scenarioHistory : List Str := (List.range 1001).map scenarioEntry

/-- The trailing token `"192.168.1.N"` of a scenario entry. -/
def scenarioToken (n : Nat) : Str := str "192.168.1." ++ dec n

theorem digitChar_not_ws (d : Nat) (h : d < 10) : isRustWhitespace (digitChar d) = false := by
  interval_cases d <;> decide

theorem scenarioToken_nonws (n : Nat) :
    ∀ c ∈ scenarioToken n, isRustWhitespace c = false := by
  intro c hc
  rcases List.mem_append.mp hc with hm | hm
  · simp [str] at hm
    rcases hm with rfl | rfl | rfl | rfl | rfl | rfl | rfl | rfl | rfl | rfl <;> decide
  · obtain ⟨d, hd, rfl⟩ := dec_mem_digit n c hm
    exact digitChar_not_ws d hd

theorem scenarioToken_ne_nil (n : Nat) : scenarioToken n ≠ [] := by
  simp [scenarioToken, str]

theorem scenarioEntry_decomp (n : Nat) :
    scenarioEntry n = (str "[12:00:" ++ pad2 n ++ [']']) ++ ' ' :: scenarioToken n := by
  unfold scenarioEntry scenarioToken
  have h : str "] 192.168.1." = ']' :: ' ' :: str "192.168.1." := rfl
  rw [h]
  simp [List.append_assoc]

theorem splitWs_scenarioEntry (n : Nat) :
    (splitWs (scenarioEntry n)).getLast? = some (scenarioToken n) := by
  rw [scenarioEntry_decomp n, splitWs_append_ws ' ' (by decide) (scenarioToken n)]
  rw [splitWs_all_nonws (scenarioToken n) (scenarioToken_ne_nil n) (scenarioToken_nonws n)]
  rw [List.getLast?_concat]

theorem scenarioHistory_length : scenarioHistory.length = 1001 := by
  simp [scenarioHistory]

theorem scenario_drop :
    scenarioHistory.drop 1 = (List.range 1000).map (fun k => scenarioEntry (k + 1)) := by
  unfold scenarioHistory
  rw [List.range_succ_eq_map]
  simp [List.map_map, Function.comp_def]

theorem filterMap_eq_map_aux (l : List Nat) (g : Nat → Option Str) (f : Nat → Str)
    (h : ∀ n ∈ l, g n = some (f n)) : l.filterMap g = l.map f := by
  induction l with
  | nil => rfl
  | cons a t ih =>
    rw [List.filterMap_cons, h a (by simp), List.map_cons,
      ih (fun n hn => h n (List.mem_cons_of_mem _ hn))]

theorem seenIpsOf_scenario :
    seenIpsOf scenarioHistory =
      ((List.range 1000).map (fun k => scenarioToken (k + 1))).toFinset := by
  unfold seenIpsOf
  have hcond : 1000 < scenarioHistory.length := by rw [scenarioHistory_length]; omega
  simp only [hcond, if_true, scenarioHistory_length]
  norm_num
  rw [← List.drop_one, scenario_drop]
  refine congrArg (fun l : List Str => l.toFinset) ?_
  rw [List.filterMap_map]
  apply filterMap_eq_map_aux
  intro n hn
  simp only [Function.comp_apply]
  rw [splitWs_scenarioEntry (n + 1)]
  simp [scenarioToken_ne_nil (n + 1)]

theorem scenarioToken_inj (m n : Nat) (h : scenarioToken m = scenarioToken n) : m = n :=
  dec_inj m n (List.append_cancel_left h)

theorem scenarioTokens_nodup :
    ((List.range 1000).map (fun k => scenarioToken (k + 1))).Nodup := by
  apply List.Nodup.map
  · intro a b hab
    have := scenarioToken_inj (a + 1) (b + 1) hab
    omega
  · exact List.nodup_range 1000

/-- A view-model state whose history log is the 1001-entry scenario. -/
def scenarioApp : App :=
  { target_name := []
    active_connections := []
    history_log := scenarioHistory
    seen_ips := ∅
    last_status_msg := []
    focus := Focus.ActiveList
    active_state := none
    history_state := none }

set_option maxRecDepth 20000 in
/-- C2: after `update_seen_ips` runs, the seen-IP set equals the set of last
whitespace-delimited tokens of the last min(len, 1000) history entries
(excluding empty tokens); and for the 1001-entry scenario history
`"[12:00:NN] 192.168.1.N"`, N in 0..=1000, the set has size exactly 1000,
excludes `"192.168.1.0"`, and includes `"192.168.1.1000"`. -/
theorem update_seen_ips_spec :
    (∀ app : App, app.update_seen_ips.seen_ips = seenIpsSpec app.history_log) ∧
      scenarioApp.update_seen_ips.seen_ips.card = 1000 ∧
      str "192.168.1.0" ∉ scenarioApp.update_seen_ips.seen_ips ∧
      str "192.168.1.1000" ∈ scenarioApp.update_seen_ips.seen_ips := by
  have hgen : ∀ app : App, app.update_seen_ips.seen_ips = seenIpsOf app.history_log :=
    fun app => rfl
  have hlog : scenarioApp.history_log = scenarioHistory := rfl
  have hseen : scenarioApp.update_seen_ips.seen_ips = seenIpsOf scenarioHistory := by
    rw [hgen scenarioApp, hlog]
  refine ⟨fun app => by rw [hgen app]; exact seenIpsOf_eq_spec app.history_log, ?_, ?_, ?_⟩
  · rw [hseen, seenIpsOf_scenario, List.toFinset_card_of_nodup scenarioTokens_nodup]
    simp
  · rw [hseen, seenIpsOf_scenario]
    intro hmem
    rw [List.mem_toFinset] at hmem
    obtain ⟨k, hk, heq⟩ := List.mem_map.mp hmem
    have h0 : str "192.168.1.0" = scenarioToken 0 := by decide
    rw [h0] at heq
    have := scenarioToken_inj (k + 1) 0 heq
    omega
  · rw [hseen, seenIpsOf_scenario, List.mem_toFinset]
    apply List.mem_map.mpr
    refine ⟨999, by simp, ?_⟩
    show scenarioToken 1000 = str "192.168.1.1000"
    decide

/-- The new index chosen by `App::next` (src/main.rs:83-86): wrap to 0 from
the last index, select 0 when nothing was selected. -/
def nextIndex (sel : Option Nat) (len : Nat) : Nat :=
  match sel with
  | some i => if len - 1 ≤ i then 0 else i + 1
  | none => 0

/-- The new index chosen by `App::previous` (src/main.rs:97-100): wrap to
`len - 1` from 0, select 0 when nothing was selected. -/
def prevIndex (sel : Option Nat) (len : Nat) : Nat :=
  match sel with
  | some i => if i = 0 then len - 1 else i - 1
  | none => 0

/-- `App::next` (src/main.rs:76-88): no-op when the focused list is empty,
otherwise select `nextIndex` of the focused list's selection. -/
def App.next (app : App) : App :=
  match app.focus with
  | Focus.ActiveList =>
    if app.active_connections.length = 0 then app
    else
      { app with
        active_state := some (nextIndex app.active_state app.active_connections.length) }
  | Focus.HistoryList =>
    if app.history_log.length = 0 then app
    else
      { app with
        history_state := some (nextIndex app.history_state app.history_log.length) }

/-- `App::previous` (src/main.rs:90-102). -/
def App.previous (app : App) : App :=
  match app.focus with
  | Focus.ActiveList =>
    if app.active_connections.length = 0 then app
    else
      { app with
        active_state := some (prevIndex app.active_state app.active_connections.length) }
  | Focus.HistoryList =>
    if app.history_log.length = 0 then app
    else
      { app with
        history_state := some (prevIndex app.history_state app.history_log.length) }

/-- `App::toggle_focus` (src/main.rs:104-109). -/
def App.toggle_focus (app : App) : App :=
  { app with focus :=
      match app.focus with
      | Focus.ActiveList => Focus.HistoryList
      | Focus.HistoryList => Focus.ActiveList }

/-- The `Error` arm of the message-drain loop (src/main.rs:270-273): set the
status message and clear the active list. -/
def applyError (msg : Str) (app : App) : App :=
  { app with last_status_msg := msg, active_connections := [] }

/-- Length of the currently focused list. -/
def focusedLen (app : App) : Nat :=
  match app.focus with
  | Focus.ActiveList => app.active_connections.length
  | Focus.HistoryList => app.history_log.length

/-- Selection cursor of the currently focused list. -/
def focusedSelection (app : App) : Option Nat :=
  match app.focus with
  | Focus.ActiveList => app.active_state
  | Focus.HistoryList => app.history_state

/-- C6: for every view-model state and error message, applying an Error
message sets the status string to the message, empties the active list, and
leaves the history log, seen-IP set, focus, and both selection cursors
unchanged. -/
theorem applyError_frame (app : App) (msg : Str) :
    (applyError msg app).last_status_msg = msg ∧
    (applyError msg app).active_connections = [] ∧
    (applyError msg app).history_log = app.history_log ∧
    (applyError msg app).seen_ips = app.seen_ips ∧
    (applyError msg app).focus = app.focus ∧
    (applyError msg app).active_state = app.active_state ∧
    (applyError msg app).history_state = app.history_state :=
  ⟨rfl, rfl, rfl, rfl, rfl, rfl, rfl⟩

theorem prev_next_index (i len : Nat) (h0 : len ≠ 0) (hlt : i < len) :
    prevIndex (some (nextIndex (some i) len)) len = i := by
  simp only [nextIndex, prevIndex]
  split_ifs <;> first
  | contradiction
  | omega

theorem next_sel (app : App) (h : focusedLen app ≠ 0) :
    focusedSelection (App.next app) = some (nextIndex (focusedSelection app) (focusedLen app)) ∧
      focusedLen (App.next app) = focusedLen app := by
  obtain ⟨tn, ac, hl, si, ls, fc, ast, hst⟩ := app
  cases fc <;> simp [focusedLen] at h <;> simp [App.next, focusedLen, focusedSelection, h]

theorem prev_sel (app : App) (h : focusedLen app ≠ 0) :
    focusedSelection (App.previous app) = some (prevIndex (focusedSelection app) (focusedLen app)) ∧
      focusedLen (App.previous app) = focusedLen app := by
  obtain ⟨tn, ac, hl, si, ls, fc, ast, hst⟩ := app
  cases fc <;> simp [focusedLen] at h <;> simp [App.previous, focusedLen, focusedSelection, h]

/-- A reachable view-model state with a one-element active list and a stale
selection index 1 (selections are not clipped when the list shrinks). -/
def staleApp : App :=
  { target_name := []
    active_connections := [['a']]
    history_log := []
    seen_ips := ∅
    last_status_msg := []
    focus := Focus.ActiveList
    active_state := some 1
    history_state := none }

/-- C8 counterexample: on a non-empty focused list with an existing (stale)
selection index 1 and length 1, `next()` then `previous()` yields selection
0, not the starting index 1. -/
theorem c8_counterexample :
    focusedLen staleApp ≠ 0 ∧ focusedSelection staleApp = some 1 ∧
      focusedSelection (App.previous (App.next staleApp)) = some 0 ∧
      focusedSelection (App.previous (App.next staleApp)) ≠ some 1 :=
  ⟨by decide, by decide, by decide, by decide⟩

/-- C8 (amended): the `next()`-then-`previous()` round-trip restores the
selection when the selected index is in range (`i < len`); `next()` at index
`len-1` yields 0 and `previous()` at 0 yields `len-1`; and on an empty
focused list both operations leave the whole state unchanged. -/
theorem next_previous_roundtrip :
    (∀ app i, focusedLen app ≠ 0 → focusedSelection app = some i → i < focusedLen app →
      focusedSelection (App.previous (App.next app)) = some i) ∧
    (∀ app, focusedLen app ≠ 0 → focusedSelection app = some (focusedLen app - 1) →
      focusedSelection (App.next app) = some 0) ∧
    (∀ app, focusedLen app ≠ 0 → focusedSelection app = some 0 →
      focusedSelection (App.previous app) = some (focusedLen app - 1)) ∧
    (∀ app, focusedLen app = 0 → App.next app = app ∧ App.previous app = app) := by
  refine ⟨?_, ?_, ?_, ?_⟩
  · intro app i hlen hsel hlt
    have hn := next_sel app hlen
    have hp := prev_sel (App.next app) (by rw [hn.2]; exact hlen)
    rw [hp.1, hn.1, hn.2, hsel, prev_next_index i (focusedLen app) hlen hlt]
  · intro app hlen hsel
    rw [(next_sel app hlen).1, hsel]
    simp [nextIndex]
  · intro app hlen hsel
    rw [(prev_sel app hlen).1, hsel]
    simp [prevIndex]
  · intro app hlen
    obtain ⟨tn, ac, hl, si, ls, fc, ast, hst⟩ := app
    cases fc <;> simp [focusedLen] at hlen <;> simp [App.next, App.previous, hlen]

theorem next_previous_roundtrip_witness :
    (focusedSelection (App.previous (App.next
      { staleApp with active_state := some 0 })) = some 0) ∧
    (focusedSelection (App.next { staleApp with active_state := some 0 }) = some 0) ∧
    (focusedSelection (App.previous { staleApp with active_state := some 0 }) = some 0) ∧
    (App.next { staleApp with active_connections := [] } =
        { staleApp with active_connections := [] } ∧
      App.previous { staleApp with active_connections := [] } =
        { staleApp with active_connections := [] }) := by
  refine ⟨?_, ?_, ?_, ?_⟩
  · exact next_previous_roundtrip.1 { staleApp with active_state := some 0 } 0
      (by decide) (by decide) (by decide)
  · have h := next_previous_roundtrip.2.1 { staleApp with active_state := some 0 }
      (by decide) (by decide)
    simpa using h
  · have h := next_previous_roundtrip.2.2.1 { staleApp with active_state := some 0 }
      (by decide) (by decide)
    simpa using h
  · exact next_previous_roundtrip.2.2.2 { staleApp with active_connections := [] } (by decide)

/-- C10: when no row is selected and the focused list is non-empty, `next()`
selects index 0 and `previous()` also selects index 0 (not `len-1`). -/
theorem next_previous_of_none (app : App) (hlen : focusedLen app ≠ 0)
    (hsel : focusedSelection app = none) :
    focusedSelection (App.next app) = some 0 ∧
      focusedSelection (App.previous app) = some 0 := by
  constructor
  · rw [(next_sel app hlen).1, hsel]
    simp [nextIndex]
  · rw [(prev_sel app hlen).1, hsel]
    simp [prevIndex]

theorem next_previous_of_none_witness :
    focusedSelection (App.next { staleApp with active_state := none }) = some 0 ∧
      focusedSelection (App.previous { staleApp with active_state := none }) = some 0 :=
  next_previous_of_none { staleApp with active_state := none } (by decide) (by decide)

/-- History-entry formatting `"[{ts}] {endpoint}"` (src/main.rs:201-202). -/
def fmtEntry (ts s : Str) : Str := '[' :: (ts ++ ']' :: ' ' :: s)

/-- One poll iteration's announcement loop (src/main.rs:196-203): walk the
extracted endpoints in order; each endpoint not in the `already announced`
set is added to it and produces one new history entry. Returns the new
announced set and the iteration's `new_entries`. -/
def announceFold (ts : Str) : List Str → List Str → List Str × List Str
  | announced, [] => (announced, [])
  | announced, s :: rest =>
    if s ∈ announced then announceFold ts announced rest
    else
      let p := announceFold ts (s :: announced) rest
      (p.1, fmtEntry ts s :: p.2)

/-- The Poller as a step relation over its private announced set: each
iteration consumes one extracted endpoint list (with its timestamp) and
emits that iteration's `new_entries`. -/
def runAnnounce : List Str → List (List Str × Str) → List (List Str × Str)
  | _, [] => []
  | announced, (active, ts) :: rest =>
    let p := announceFold ts announced active
    (p.2, ts) :: runAnnounce p.1 rest

theorem fmtEntry_inj (ts s s' : Str) (h : fmtEntry ts s = fmtEntry ts s') : s = s' := by
  unfold fmtEntry at h
  have h1 := List.tail_eq_of_cons_eq h
  have h2 := List.append_cancel_left h1
  exact List.tail_eq_of_cons_eq (List.tail_eq_of_cons_eq h2)

theorem announceFold_mem (ts : Str) (cands : List Str) :
    ∀ announced s, s ∈ announced → s ∈ (announceFold ts announced cands).1 := by
  induction cands with
  | nil => intro announced s hs; simpa [announceFold] using hs
  | cons c rest ih =>
    intro announced s hs
    by_cases hc : c ∈ announced
    · simpa [announceFold, hc] using ih announced s hs
    · simpa [announceFold, hc] using ih (c :: announced) s (List.mem_cons_of_mem _ hs)

theorem announceFold_entry (ts : Str) (cands : List Str) :
    ∀ announced s, fmtEntry ts s ∈ (announceFold ts announced cands).2 →
      s ∉ announced ∧ s ∈ (announceFold ts announced cands).1 := by
  induction cands with
  | nil => intro announced s hs; simp [announceFold] at hs
  | cons c rest ih =>
    intro announced s hs
    by_cases hc : c ∈ announced
    · rw [announceFold, if_pos hc] at hs ⊢
      exact ih announced s hs
    · rw [announceFold, if_neg hc] at hs ⊢
      rcases List.mem_cons.mp hs with heq | hmem
      · have hss : s = c := fmtEntry_inj ts s c heq
        subst hss
        exact ⟨hc, announceFold_mem ts rest (s :: announced) s (by simp)⟩
      · have := ih (c :: announced) s hmem
        exact ⟨fun hmem2 => this.1 (List.mem_cons_of_mem _ hmem2), this.2⟩

theorem runAnnounce_count_zero (s : Str) (inputs : List (List Str × Str)) :
    ∀ announced, s ∈ announced →
      (runAnnounce announced inputs).countP (fun q => decide (fmtEntry q.2 s ∈ q.1)) = 0 := by
  induction inputs with
  | nil => intro announced hs; rfl
  | cons q rest ih =>
    intro announced hs
    obtain ⟨active, ts⟩ := q
    rw [runAnnounce, List.countP_cons]
    have hnot : fmtEntry ts s ∉ (announceFold ts announced active).2 := by
      intro hmem
      exact (announceFold_entry ts active announced s hmem).1 hs
    simp only [hnot, decide_False, if_false, Nat.add_zero]
    exact ih _ (announceFold_mem ts active announced s hs)

theorem runAnnounce_count_le_one (s : Str) (inputs : List (List Str × Str)) :
    ∀ announced,
      (runAnnounce announced inputs).countP (fun q => decide (fmtEntry q.2 s ∈ q.1)) ≤ 1 := by
  induction inputs with
  | nil => intro announced; simp [runAnnounce]
  | cons q rest ih =>
    intro announced
    obtain ⟨active, ts⟩ := q
    rw [runAnnounce, List.countP_cons]
    by_cases hmem : fmtEntry ts s ∈ (announceFold ts announced active).2
    · have hrest := runAnnounce_count_zero s rest _
        (announceFold_entry ts active announced s hmem).2
      simp [hmem, hrest]
    · simp only [hmem, decide_False, if_false, Nat.add_zero]
      exact ih _

/-- C3: over any sequence of poll iterations started from the empty announced
set, each endpoint produces a history entry in at most one iteration; and an
endpoint already in the announced set (e.g. one that disappeared and
reappeared) never produces another entry in the remaining run. -/
theorem first_contact_dedup (inputs : List (List Str × Str)) (s : Str) :
    (runAnnounce [] inputs).countP (fun q => decide (fmtEntry q.2 s ∈ q.1)) ≤ 1 ∧
      ∀ announced, s ∈ announced →
        (runAnnounce announced inputs).countP (fun q => decide (fmtEntry q.2 s ∈ q.1)) = 0 :=
  ⟨runAnnounce_count_le_one s inputs [],
    fun announced hs => runAnnounce_count_zero s inputs announced hs⟩

theorem first_contact_dedup_witness :
    (runAnnounce [] [([str "1.2.3.4"], str "12:00:00"), ([str "1.2.3.4"], str "12:00:01")]).countP
        (fun q => decide (fmtEntry q.2 (str "1.2.3.4") ∈ q.1)) ≤ 1 ∧
      (runAnnounce [str "1.2.3.4"] [([str "1.2.3.4"], str "12:00:00")]).countP
        (fun q => decide (fmtEntry q.2 (str "1.2.3.4") ∈ q.1)) = 0 :=
  ⟨(first_contact_dedup [([str "1.2.3.4"], str "12:00:00"), ([str "1.2.3.4"], str "12:00:01")]
      (str "1.2.3.4")).1,
    (first_contact_dedup [([str "1.2.3.4"], str "12:00:00")] (str "1.2.3.4")).2
      [str "1.2.3.4"] (by decide)⟩

/-- Three-way comparison on `Nat` (Rust `Ord` for the integer types). -/
def natCmp (a b : Nat) : Ordering :=
  if a < b then Ordering.lt else if b < a then Ordering.gt else Ordering.eq

/-- Sequential composition of comparisons (Rust `Ordering::then`). -/
def thenCmp (o p : Ordering) : Ordering :=
  match o with
  | Ordering.eq => p
  | x => x

/-- Lexicographic comparison of lists from an element comparison (Rust `Ord`
for slices and arrays). -/
def lexCmp (f : α → α → Ordering) : List α → List α → Ordering
  | [], [] => Ordering.eq
  | [], _ :: _ => Ordering.lt
  | _ :: _, [] => Ordering.gt
  | a :: l, b :: r => thenCmp (f a b) (lexCmp f l r)

theorem natCmp_swap (a b : Nat) : natCmp a b = (natCmp b a).swap := by
  unfold natCmp
  rcases Nat.lt_trichotomy a b with h | h | h
  · rw [if_pos h, if_neg (by omega), if_pos h]; rfl
  · rw [if_neg (by omega), if_neg (by omega), if_neg (by omega), if_neg (by omega)]; rfl
  · rw [if_neg (by omega), if_pos h, if_pos h]; rfl

theorem natCmp_eq (a b : Nat) (h : natCmp a b = Ordering.eq) : a = b := by
  unfold natCmp at h
  split_ifs at h <;> omega

theorem thenCmp_swap (o p : Ordering) : (thenCmp o p).swap = thenCmp o.swap p.swap := by
  cases o <;> cases p <;> rfl

theorem thenCmp_eq (o p : Ordering) (h : thenCmp o p = Ordering.eq) :
    o = Ordering.eq ∧ p = Ordering.eq := by
  cases o <;> cases p <;> simp_all [thenCmp]

theorem lexCmp_swap (f : α → α → Ordering) (hf : ∀ a b, f a b = (f b a).swap) :
    ∀ l r, lexCmp f l r = (lexCmp f r l).swap := by
  intro l
  induction l with
  | nil => intro r; cases r <;> rfl
  | cons a l ih =>
    intro r
    cases r with
    | nil => rfl
    | cons b r =>
      rw [lexCmp, lexCmp, hf a b, ih r, ← thenCmp_swap]

theorem lexCmp_eq (f : α → α → Ordering) (hf : ∀ a b, f a b = Ordering.eq → a = b) :
    ∀ l r, lexCmp f l r = Ordering.eq → l = r := by
  intro l
  induction l with
  | nil => intro r h; cases r with
    | nil => rfl
    | cons b r => simp [lexCmp] at h
  | cons a l ih =>
    intro r h
    cases r with
    | nil => simp [lexCmp] at h
    | cons b r =>
      rw [lexCmp] at h
      obtain ⟨h1, h2⟩ := thenCmp_eq _ _ h
      rw [hf a b h1, ih r h2]

theorem charToNat_inj {a b : Char} (h : a.toNat = b.toNat) : a = b :=
  Char.ext (UInt32.toNat.inj h)

/-- Character comparison by code point (Rust `Ord` for `char`; over ASCII it
also agrees with the byte order Rust uses for `str`). -/
def charCmp (c d : Char) : Ordering := natCmp c.toNat d.toNat

/-- String comparison (Rust `Ord` for `String`: lexicographic on the bytes,
which on code points is lexicographic code-point order). -/
def strCmp (a b : Str) : Ordering := lexCmp charCmp a b

theorem charCmp_swap (c d : Char) : charCmp c d = (charCmp d c).swap := natCmp_swap _ _

theorem charCmp_eq (c d : Char) (h : charCmp c d = Ordering.eq) : c = d :=
  charToNat_inj (natCmp_eq _ _ h)

theorem strCmp_swap (a b : Str) : strCmp a b = (strCmp b a).swap :=
  lexCmp_swap charCmp charCmp_swap a b

theorem strCmp_eq (a b : Str) (h : strCmp a b = Ordering.eq) : a = b :=
  lexCmp_eq charCmp charCmp_eq a b h

/-- Value of a decimal digit string. -/
def digitsVal (l : Str) : Nat := l.foldl (fun a c => 10 * a + (c.toNat - 48)) 0

/-- Model of the octet parser inside Rust `Ipv4Addr::from_str`
(`core::net::parser::read_number` with at most 3 digits, no zero prefix,
`u8` range): consume the leading digits; fail on empty, zero-prefixed,
over-long or over-255 values; return the value and the rest. -/
def parseOctet (l : Str) : Option (Nat × Str) :=
  match l.takeWhile (fun c => c.isDigit) with
  | [] => none
  | c :: cs =>
    if c = '0' ∧ cs ≠ [] then none
    else if 3 < (c :: cs).length then none
    else if 255 < digitsVal (c :: cs) then none
    else some (digitsVal (c :: cs), l.drop (c :: cs).length)

/-- The `'.'` separator step of Rust `Ipv4Addr::from_str`
(`core::net::parser::read_separator`). -/
def expectDot : Str → Option Str
  | [] => none
  | c :: t => if c = '.' then some t else none

/-- Model of Rust `Ipv4Addr::from_str`: four octets separated by `'.'`,
consuming the whole string. -/
def parseIpv4 (l : Str) : Option (Nat × Nat × Nat × Nat) :=
  (parseOctet l).bind (fun p1 =>
    (expectDot p1.2).bind (fun r1 =>
      (parseOctet r1).bind (fun p2 =>
        (expectDot p2.2).bind (fun r2 =>
          (parseOctet r2).bind (fun p3 =>
            (expectDot p3.2).bind (fun r3 =>
              (parseOctet r3).bind (fun p4 =>
                if p4.2 = [] then some (p1.1, p2.1, p3.1, p4.1) else none)))))))

def isHexDigitC (c : Char) : Bool :=
  c.isDigit || ('a' ≤ c && c ≤ 'f') || ('A' ≤ c && c ≤ 'F')

def hexVal (c : Char) : Nat :=
  if c.isDigit then c.toNat - 48 else if 'a' ≤ c then c.toNat - 87 else c.toNat - 55

/-- One 16-bit hexadecimal group of an IPv6 address: 1 to 4 hex digits. -/
def parseHexGroup (p : Str) : Option Nat :=
  if p = [] then none
  else if 4 < p.length then none
  else if p.all isHexDigitC then some (p.foldl (fun a c => 16 * a + hexVal c) 0)
  else none

/-- Colon-separated groups ending an IPv6 address: every piece a hex group,
except that the final piece may be an embedded IPv4 address (two groups). -/
def parseGroupsTail : List Str → Option (List Nat)
  | [] => some []
  | [p] =>
    match parseHexGroup p with
    | some v => some [v]
    | none =>
      match parseIpv4 p with
      | some (a, b, c, d) => some [256 * a + b, 256 * c + d]
      | none => none
  | p :: ps =>
    match parseHexGroup p with
    | some v => (parseGroupsTail ps).map (v :: ·)
    | none => none

/-- Colon-separated hex groups (no embedded IPv4 allowed). -/
def parseGroupsHex : List Str → Option (List Nat)
  | [] => some []
  | p :: ps =>
    match parseHexGroup p, parseGroupsHex ps with
    | some v, some vs => some (v :: vs)
    | _, _ => none

/-- Model of Rust `Ipv6Addr::from_str`: either eight groups (the last possibly
an embedded IPv4 address), or a single `"::"` compression with at most seven
expressed groups around it. Returns the eight 16-bit groups. -/
def parseIpv6 (l : Str) : Option (List Nat) :=
  match findSub [':', ':'] l with
  | none =>
    match parseGroupsTail (splitOnChar ':' l) with
    | some gs => if gs.length = 8 then some gs else none
    | none => none
  | some i =>
    let front := l.take i
    let back := l.drop (i + 2)
    let fgs? := if front = [] then some [] else parseGroupsHex (splitOnChar ':' front)
    let bgs? := if back = [] then some [] else parseGroupsTail (splitOnChar ':' back)
    match fgs?, bgs? with
    | some fgs, some bgs =>
      if fgs.length + bgs.length ≤ 7 then
        some (fgs ++ List.replicate (8 - fgs.length - bgs.length) 0 ++ bgs)
      else none
    | _, _ => none

/-- Model of Rust `IpAddr` as far as ordering is concerned: a V4 address is
four octets, a V6 address its eight 16-bit groups; `V4 < V6`. -/
inductive RsIp
  | v4 (a b c d : Nat)
  | v6 (groups : List Nat)
deriving DecidableEq

/-- Rust `Ord` for `IpAddr`: V4 before V6, octets respectively groups
compared lexicographically (= numerically). -/
def cmpIp : RsIp → RsIp → Ordering
  | RsIp.v4 a b c d, RsIp.v4 a' b' c' d' =>
    thenCmp (natCmp a a') (thenCmp (natCmp b b') (thenCmp (natCmp c c') (natCmp d d')))
  | RsIp.v4 _ _ _ _, RsIp.v6 _ => Ordering.lt
  | RsIp.v6 _, RsIp.v4 _ _ _ _ => Ordering.gt
  | RsIp.v6 g, RsIp.v6 h => lexCmp natCmp g h

/-- Model of Rust `IpAddr::from_str`: try IPv4, then IPv6. -/
def parseIpAddr (l : Str) : Option RsIp :=
  match parseIpv4 l with
  | some (a, b, c, d) => some (RsIp.v4 a b c d)
  | none => (parseIpv6 l).map RsIp.v6

/-- The sort comparator of `run_app` (src/main.rs:211-216): parse both sides
as IP addresses; compare as addresses when both parse, otherwise compare the
strings. -/
def cmpConn (a b : Str) : Ordering :=
  match parseIpAddr a, parseIpAddr b with
  | some x, some y => cmpIp x y
  | _, _ => strCmp a b

theorem cmpIp_swap (x y : RsIp) : cmpIp x y = (cmpIp y x).swap := by
  cases x with
  | v4 a b c d =>
    cases y with
    | v4 a' b' c' d' =>
      simp only [cmpIp]
      rw [thenCmp_swap, thenCmp_swap, thenCmp_swap,
        natCmp_swap a a', natCmp_swap b b', natCmp_swap c c', natCmp_swap d d']
    | v6 g => rfl
  | v6 g =>
    cases y with
    | v4 a' b' c' d' => rfl
    | v6 h => exact lexCmp_swap natCmp natCmp_swap g h

theorem cmpIp_eq (x y : RsIp) (h : cmpIp x y = Ordering.eq) : x = y := by
  cases x with
  | v4 a b c d =>
    cases y with
    | v4 a' b' c' d' =>
      rw [cmpIp] at h
      obtain ⟨h1, h2⟩ := thenCmp_eq _ _ h
      obtain ⟨h3, h4⟩ := thenCmp_eq _ _ h2
      obtain ⟨h5, h6⟩ := thenCmp_eq _ _ h4
      rw [natCmp_eq _ _ h1, natCmp_eq _ _ h3, natCmp_eq _ _ h5, natCmp_eq _ _ h6]
    | v6 g => simp [cmpIp] at h
  | v6 g =>
    cases y with
    | v4 a' b' c' d' => simp [cmpIp] at h
    | v6 h' => rw [lexCmp_eq natCmp natCmp_eq g h' h]

theorem cmpConn_swap (a b : Str) : cmpConn a b = (cmpConn b a).swap := by
  unfold cmpConn
  cases parseIpAddr a <;> cases parseIpAddr b
  · exact strCmp_swap a b
  · exact strCmp_swap a b
  · exact strCmp_swap a b
  · exact cmpIp_swap _ _

/-- Fuel-driven stable merge (takes from the left unless the comparator says
`Greater`, as Rust's stable sort does). -/
def mergeByFuel (cmp : Str → Str → Ordering) : Nat → List Str → List Str → List Str
  | 0, l, r => l ++ r
  | _ + 1, [], r => r
  | _ + 1, a :: l, [] => a :: l
  | fuel + 1, a :: l, b :: r =>
    if cmp a b = Ordering.gt then b :: mergeByFuel cmp fuel (a :: l) r
    else a :: mergeByFuel cmp fuel l (b :: r)

/-- Fuel-driven top-down merge sort, the model of Rust `slice::sort_by`. -/
def sortByFuel (cmp : Str → Str → Ordering) : Nat → List Str → List Str
  | 0, l => l
  | _ + 1, [] => []
  | _ + 1, [a] => [a]
  | fuel + 1, a :: b :: t =>
    mergeByFuel cmp ((a :: b :: t).length)
      (sortByFuel cmp fuel ((a :: b :: t).take ((a :: b :: t).length / 2)))
      (sortByFuel cmp fuel ((a :: b :: t).drop ((a :: b :: t).length / 2)))

/-- Model of Rust `Vec::sort_by` with a comparator. -/
def sortBy (cmp : Str → Str → Ordering) (l : List Str) : List Str :=
  sortByFuel cmp l.length l

theorem mergeByFuel_head (cmp : Str → Str → Ordering) :
    ∀ fuel l r, (mergeByFuel cmp fuel l r).head? = l.head? ∨
      (mergeByFuel cmp fuel l r).head? = r.head? := by
  intro fuel
  induction fuel with
  | zero =>
    intro l r
    cases l with
    | nil => right; rfl
    | cons a t => left; rfl
  | succ f ih =>
    intro l r
    cases l with
    | nil => right; rfl
    | cons a l =>
      cases r with
      | nil => left; rfl
      | cons b r =>
        rw [mergeByFuel]
        by_cases h : cmp a b = Ordering.gt
        · rw [if_pos h]; right; rfl
        · rw [if_neg h]; left; rfl

theorem mergeByFuel_perm (cmp : Str → Str → Ordering) :
    ∀ fuel l r, List.Perm (mergeByFuel cmp fuel l r) (l ++ r) := by
  intro fuel
  induction fuel with
  | zero => intro l r; rfl
  | succ f ih =>
    intro l r
    cases l with
    | nil => simp [mergeByFuel]
    | cons a l =>
      cases r with
      | nil => simp [mergeByFuel]
      | cons b r =>
        rw [mergeByFuel]
        by_cases h : cmp a b = Ordering.gt
        · rw [if_pos h]
          exact ((ih (a :: l) r).cons b).trans List.perm_middle.symm
        · rw [if_neg h]
          exact (ih l (b :: r)).cons a

theorem swap_gt_iff (o : Ordering) : o.swap = Ordering.gt ↔ o = Ordering.lt := by
  cases o <;> simp [Ordering.swap]

theorem mergeByFuel_chain (cmp : Str → Str → Ordering)
    (hswap : ∀ a b, cmp a b = (cmp b a).swap) :
    ∀ fuel l r, l.length + r.length ≤ fuel →
      List.Chain' (fun a b => cmp a b ≠ Ordering.gt) l →
      List.Chain' (fun a b => cmp a b ≠ Ordering.gt) r →
      List.Chain' (fun a b => cmp a b ≠ Ordering.gt) (mergeByFuel cmp fuel l r) := by
  intro fuel
  induction fuel with
  | zero =>
    intro l r hlen hl hr
    have hl0 : l = [] := List.length_eq_zero.mp (by omega)
    have hr0 : r = [] := List.length_eq_zero.mp (by omega)
    subst hl0; subst hr0
    simp [mergeByFuel]
  | succ f ih =>
    intro l r hlen hl hr
    cases l with
    | nil => simpa [mergeByFuel] using hr
    | cons a l =>
      cases r with
      | nil => simpa [mergeByFuel] using hl
      | cons b r =>
        rw [mergeByFuel]
        by_cases h : cmp a b = Ordering.gt
        · rw [if_pos h]
          rw [List.chain'_cons']
          constructor
          · intro y hy
            rcases mergeByFuel_head cmp f (a :: l) r with hh | hh
            · rw [hh] at hy
              simp only [List.head?_cons, Option.mem_def, Option.some_inj] at hy
              subst hy
              intro hba
              rw [hswap a b, swap_gt_iff] at h
              rw [hba] at h
              exact absurd h (by simp)
            · rw [hh] at hy
              exact (List.chain'_cons'.mp hr).1 y hy
          · apply ih (a :: l) r
            · simp only [List.length_cons] at hlen ⊢
              omega
            · exact hl
            · exact hr.tail
        · rw [if_neg h]
          rw [List.chain'_cons']
          constructor
          · intro y hy
            rcases mergeByFuel_head cmp f l (b :: r) with hh | hh
            · rw [hh] at hy
              exact (List.chain'_cons'.mp hl).1 y hy
            · rw [hh] at hy
              simp only [List.head?_cons, Option.mem_def, Option.some_inj] at hy
              subst hy
              exact h
          · apply ih l (b :: r)
            · simp only [List.length_cons] at hlen ⊢
              omega
            · exact hl.tail
            · exact hr

theorem sortByFuel_perm (cmp : Str → Str → Ordering) :
    ∀ fuel l, List.Perm (sortByFuel cmp fuel l) l := by
  intro fuel
  induction fuel with
  | zero => intro l; rfl
  | succ f ih =>
    intro l
    match l with
    | [] => rfl
    | [a] => rfl
    | a :: b :: t =>
      rw [sortByFuel]
      refine (mergeByFuel_perm cmp _ _ _).trans ?_
      refine (List.Perm.append (ih _) (ih _)).trans ?_
      rw [List.take_append_drop]

theorem sortByFuel_chain (cmp : Str → Str → Ordering)
    (hswap : ∀ a b, cmp a b = (cmp b a).swap) :
    ∀ fuel l, l.length ≤ fuel →
      List.Chain' (fun a b => cmp a b ≠ Ordering.gt) (sortByFuel cmp fuel l) := by
  intro fuel
  induction fuel with
  | zero =>
    intro l hl
    have : l = [] := List.length_eq_zero.mp (by omega)
    subst this
    simp [sortByFuel]
  | succ f ih =>
    intro l hl
    match l with
    | [] => simp [sortByFuel]
    | [a] => simp [sortByFuel]
    | a :: b :: t =>
      rw [sortByFuel]
      have hlen : (a :: b :: t).length = t.length + 2 := by simp
      apply mergeByFuel_chain cmp hswap
      · have h1 := (sortByFuel_perm cmp f ((a :: b :: t).take ((a :: b :: t).length / 2))).length_eq
        have h2 := (sortByFuel_perm cmp f ((a :: b :: t).drop ((a :: b :: t).length / 2))).length_eq
        rw [h1, h2, List.length_take, List.length_drop]
        simp only [hlen]
        omega
      · apply ih
        rw [List.length_take]
        simp only [hlen] at hl ⊢
        omega
      · apply ih
        rw [List.length_drop]
        simp only [hlen] at hl ⊢
        omega

theorem sortBy_perm (cmp : Str → Str → Ordering) (l : List Str) :
    List.Perm (sortBy cmp l) l :=
  sortByFuel_perm cmp l.length l

theorem sortBy_chain (cmp : Str → Str → Ordering)
    (hswap : ∀ a b, cmp a b = (cmp b a).swap) (l : List Str) :
    List.Chain' (fun a b => cmp a b ≠ Ordering.gt) (sortBy cmp l) :=
  sortByFuel_chain cmp hswap l.length l le_rfl

theorem chain'_and_of {R S : Str → Str → Prop} :
    ∀ l, List.Chain' R l → List.Chain' S l →
      List.Chain' (fun a b => R a b ∧ S a b) l := by
  intro l
  induction l with
  | nil => intro _ _; simp
  | cons a t ih =>
    intro h1 h2
    cases t with
    | nil => simp
    | cons b t' =>
      rw [List.chain'_cons] at h1 h2 ⊢
      exact ⟨⟨h1.1, h2.1⟩, ih h1.2 h2.2⟩

theorem chain'_imp_mem {R S : Str → Str → Prop} :
    ∀ l, (∀ a b, a ∈ l → b ∈ l → R a b → S a b) → List.Chain' R l → List.Chain' S l := by
  intro l
  induction l with
  | nil => intro _ _; simp
  | cons a t ih =>
    intro himp h1
    cases t with
    | nil => simp
    | cons b t' =>
      rw [List.chain'_cons] at h1 ⊢
      refine ⟨himp a b (by simp) (by simp) h1.1, ?_⟩
      exact ih (fun x y hx hy => himp x y (List.mem_cons_of_mem _ hx) (List.mem_cons_of_mem _ hy))
        h1.2

theorem isDigit_toNat (c : Char) (h : c.isDigit = true) : 48 ≤ c.toNat ∧ c.toNat ≤ 57 := by
  unfold Char.isDigit at h
  rw [Bool.and_eq_true] at h
  obtain ⟨h1, h2⟩ := h
  have g1 : (48 : UInt32) ≤ c.val := of_decide_eq_true h1
  have g2 : c.val ≤ (57 : UInt32) := of_decide_eq_true h2
  rw [UInt32.le_def, BitVec.le_def] at g1 g2
  have e1 : (48 : UInt32).toBitVec.toNat = 48 := by decide
  have e2 : (57 : UInt32).toBitVec.toNat = 57 := by decide
  rw [e1] at g1
  rw [e2] at g2
  exact ⟨g1, g2⟩

theorem digit_head_pos (a : Char) (ha : a.isDigit = true) (hne : a ≠ '0') : 49 ≤ a.toNat := by
  have hb := isDigit_toNat a ha
  by_contra hlt
  push_neg at hlt
  have h48 : a.toNat = 48 := by omega
  exact hne (charToNat_inj (show a.toNat = '0'.toNat by rw [h48]; decide))

theorem digitsVal_one (a : Char) : digitsVal [a] = a.toNat - 48 := by
  simp [digitsVal]

theorem digitsVal_two (a b : Char) :
    digitsVal [a, b] = 10 * (a.toNat - 48) + (b.toNat - 48) := by
  simp [digitsVal]

theorem digitsVal_three (a b c : Char) :
    digitsVal [a, b, c] = 10 * (10 * (a.toNat - 48) + (b.toNat - 48)) + (c.toNat - 48) := by
  simp [digitsVal, Nat.mul_add]

theorem digits_unique (u v : Str) (hdu : ∀ c ∈ u, c.isDigit = true)
    (hdv : ∀ c ∈ v, c.isDigit = true)
    (hzu : u.head? = some '0' → u = ['0']) (hzv : v.head? = some '0' → v = ['0'])
    (hlu : u.length ≤ 3) (hlv : v.length ≤ 3) (hneu : u ≠ []) (hnev : v ≠ [])
    (hval : digitsVal u = digitsVal v) : u = v := by
  rcases u with _ | ⟨a, _ | ⟨b, _ | ⟨c, _ | restu⟩⟩⟩
  · exact absurd rfl hneu
  all_goals rcases v with _ | ⟨a', _ | ⟨b', _ | ⟨c', _ | restv⟩⟩⟩
  all_goals first
  | exact absurd rfl hnev
  | (exfalso; simp only [List.length_cons] at hlu; omega)
  | (exfalso; simp only [List.length_cons] at hlv; omega)
  | skip
  -- remaining: 9 combinations of lengths 1-3
  · -- [a] vs [a']
    have b1 := isDigit_toNat a (hdu a (by simp))
    have b2 := isDigit_toNat a' (hdv a' (by simp))
    rw [digitsVal_one, digitsVal_one] at hval
    have : a.toNat = a'.toNat := by omega
    rw [charToNat_inj this]
  · -- [a] vs [a', b']
    exfalso
    have b1 := isDigit_toNat a (hdu a (by simp))
    have b2 := isDigit_toNat b' (hdv b' (by simp))
    have ha' : a' ≠ '0' := by
      intro h0
      subst h0
      have := hzv (by simp)
      simp at this
    have b3 := digit_head_pos a' (hdv a' (by simp)) ha'
    rw [digitsVal_one, digitsVal_two] at hval
    omega
  · -- [a] vs [a', b', c']
    exfalso
    have b1 := isDigit_toNat a (hdu a (by simp))
    have b2 := isDigit_toNat b' (hdv b' (by simp))
    have b4 := isDigit_toNat c' (hdv c' (by simp))
    have ha' : a' ≠ '0' := by
      intro h0
      subst h0
      have := hzv (by simp)
      simp at this
    have b3 := digit_head_pos a' (hdv a' (by simp)) ha'
    rw [digitsVal_one, digitsVal_three] at hval
    omega
  · -- [a, b] vs [a']
    exfalso
    have b1 := isDigit_toNat a' (hdv a' (by simp))
    have b2 := isDigit_toNat b (hdu b (by simp))
    have ha : a ≠ '0' := by
      intro h0
      subst h0
      have := hzu (by simp)
      simp at this
    have b3 := digit_head_pos a (hdu a (by simp)) ha
    rw [digitsVal_two, digitsVal_one] at hval
    omega
  · -- [a, b] vs [a', b']
    have b1 := isDigit_toNat a (hdu a (by simp))
    have b2 := isDigit_toNat b (hdu b (by simp))
    have b3 := isDigit_toNat a' (hdv a' (by simp))
    have b4 := isDigit_toNat b' (hdv b' (by simp))
    rw [digitsVal_two, digitsVal_two] at hval
    have e1 : a.toNat = a'.toNat := by omega
    have e2 : b.toNat = b'.toNat := by omega
    rw [charToNat_inj e1, charToNat_inj e2]
  · -- [a, b] vs [a', b', c']
    exfalso
    have b1 := isDigit_toNat a (hdu a (by simp))
    have b2 := isDigit_toNat b (hdu b (by simp))
    have b3 := isDigit_toNat b' (hdv b' (by simp))
    have b4 := isDigit_toNat c' (hdv c' (by simp))
    have ha' : a' ≠ '0' := by
      intro h0
      subst h0
      have := hzv (by simp)
      simp at this
    have b5 := digit_head_pos a' (hdv a' (by simp)) ha'
    have ha : a ≠ '0' := by
      intro h0
      subst h0
      have := hzu (by simp)
      simp at this
    have b6 := digit_head_pos a (hdu a (by simp)) ha
    rw [digitsVal_two, digitsVal_three] at hval
    omega
  · -- [a, b, c] vs [a']
    exfalso
    have b1 := isDigit_toNat a' (hdv a' (by simp))
    have b2 := isDigit_toNat b (hdu b (by simp))
    have b4 := isDigit_toNat c (hdu c (by simp))
    have ha : a ≠ '0' := by
      intro h0
      subst h0
      have := hzu (by simp)
      simp at this
    have b3 := digit_head_pos a (hdu a (by simp)) ha
    rw [digitsVal_three, digitsVal_one] at hval
    omega
  · -- [a, b, c] vs [a', b']
    exfalso
    have b1 := isDigit_toNat b (hdu b (by simp))
    have b2 := isDigit_toNat c (hdu c (by simp))
    have b3 := isDigit_toNat b' (hdv b' (by simp))
    have ha : a ≠ '0' := by
      intro h0
      subst h0
      have := hzu (by simp)
      simp at this
    have b5 := digit_head_pos a (hdu a (by simp)) ha
    have ha' : a' ≠ '0' := by
      intro h0
      subst h0
      have := hzv (by simp)
      simp at this
    have b6 := digit_head_pos a' (hdv a' (by simp)) ha'
    have b7 := isDigit_toNat a (hdu a (by simp))
    have b8 := isDigit_toNat a' (hdv a' (by simp))
    rw [digitsVal_three, digitsVal_two] at hval
    omega
  · -- [a, b, c] vs [a', b', c']
    have b1 := isDigit_toNat a (hdu a (by simp))
    have b2 := isDigit_toNat b (hdu b (by simp))
    have b3 := isDigit_toNat c (hdu c (by simp))
    have b4 := isDigit_toNat a' (hdv a' (by simp))
    have b5 := isDigit_toNat b' (hdv b' (by simp))
    have b6 := isDigit_toNat c' (hdv c' (by simp))
    rw [digitsVal_three, digitsVal_three] at hval
    have e1 : a.toNat = a'.toNat := by omega
    have e2 : b.toNat = b'.toNat := by omega
    have e3 : c.toNat = c'.toNat := by omega
    rw [charToNat_inj e1, charToNat_inj e2, charToNat_inj e3]

theorem drop_takeWhile_length (p : Char → Bool) :
    ∀ l : Str, l.drop (l.takeWhile p).length = l.dropWhile p := by
  intro l
  induction l with
  | nil => rfl
  | cons c t ih =>
    by_cases h : p c = true
    · rw [List.takeWhile_cons_of_pos h, List.dropWhile_cons_of_pos h, List.length_cons,
        List.drop_succ_cons]
      exact ih
    · rw [List.takeWhile_cons_of_neg h, List.dropWhile_cons_of_neg h, List.length_nil,
        List.drop_zero]

theorem parseOctet_inv (l : Str) (v : Nat) (r : Str) (h : parseOctet l = some (v, r)) :
    ∃ digs, l = digs ++ r ∧ digs ≠ [] ∧ (∀ c ∈ digs, c.isDigit = true) ∧
      (digs.head? = some '0' → digs = ['0']) ∧ digs.length ≤ 3 ∧ digitsVal digs = v := by
  unfold parseOctet at h
  split at h
  next => exact absurd h (by simp)
  next c cs htake =>
    by_cases h1 : c = '0' ∧ cs ≠ []
    · rw [if_pos h1] at h; exact absurd h (by simp)
    · rw [if_neg h1] at h
      by_cases h2 : 3 < (c :: cs).length
      · rw [if_pos h2] at h; exact absurd h (by simp)
      · rw [if_neg h2] at h
        by_cases h3 : 255 < digitsVal (c :: cs)
        · rw [if_pos h3] at h; exact absurd h (by simp)
        · rw [if_neg h3] at h
          rw [Option.some_inj] at h
          have hv : digitsVal (c :: cs) = v := congrArg Prod.fst h
          have hr : l.drop (c :: cs).length = r := congrArg Prod.snd h
          refine ⟨c :: cs, ?_, by simp, ?_, ?_, by omega, hv⟩
          · have hr2 : l.drop (c :: cs).length = l.dropWhile (fun c => c.isDigit) := by
              rw [← htake]
              exact drop_takeWhile_length _ l
            rw [← hr, hr2, ← htake]
            exact (List.takeWhile_append_dropWhile _ _).symm
          · intro x hx
            have := mem_takeWhile_pred (fun c => c.isDigit) l
            rw [htake] at this
            exact this x hx
          · intro h0
            simp only [List.head?_cons, Option.some_inj] at h0
            have hcs : cs = [] := by
              by_contra hne
              exact h1 ⟨h0, hne⟩
            rw [h0, hcs]

theorem parseOctet_unique (l l' : Str) (v : Nat) (r : Str)
    (h : parseOctet l = some (v, r)) (h' : parseOctet l' = some (v, r)) : l = l' := by
  obtain ⟨d, hl, hdne, hdd, hdz, hdl, hdv⟩ := parseOctet_inv l v r h
  obtain ⟨d', hl', hdne', hdd', hdz', hdl', hdv'⟩ := parseOctet_inv l' v r h'
  rw [hl, hl',
    digits_unique d d' hdd hdd' hdz hdz' hdl hdl' hdne hdne' (by rw [hdv, hdv'])]

theorem expectDot_inv (r r1 : Str) (h : expectDot r = some r1) : r = '.' :: r1 := by
  unfold expectDot at h
  split at h
  next => exact absurd h (by simp)
  next c t =>
    by_cases hc : c = '.'
    · rw [if_pos hc] at h
      rw [hc, Option.some_inj.mp h]
    · rw [if_neg hc] at h
      exact absurd h (by simp)

theorem parseIpv4_inv (l : Str) (a b c d : Nat) (h : parseIpv4 l = some (a, b, c, d)) :
    ∃ r0 r1 r2, parseOctet l = some (a, '.' :: r0) ∧ parseOctet r0 = some (b, '.' :: r1) ∧
      parseOctet r1 = some (c, '.' :: r2) ∧ parseOctet r2 = some (d, []) := by
  unfold parseIpv4 at h
  simp only [Option.bind_eq_some] at h
  obtain ⟨⟨a0, s0⟩, ho0, ⟨t0, hd0, ⟨⟨b0, s1⟩, ho1, ⟨t1, hd1,
    ⟨⟨c0, s2⟩, ho2, ⟨t2, hd2, ⟨⟨d0, s3⟩, ho3, h⟩⟩⟩⟩⟩⟩⟩ := h
  by_cases hs3 : s3 = []
  · rw [if_pos hs3] at h
    rw [Option.some_inj] at h
    obtain ⟨ha, hb, hc, hd⟩ : a0 = a ∧ b0 = b ∧ c0 = c ∧ d0 = d := by
      have h1 := congrArg Prod.fst h
      have h2 := congrArg (fun q => q.snd.fst) h
      have h3 := congrArg (fun q => q.snd.snd.fst) h
      have h4 := congrArg (fun q => q.snd.snd.snd) h
      exact ⟨h1, h2, h3, h4⟩
    subst ha; subst hb; subst hc; subst hd; subst hs3
    refine ⟨t0, t1, t2, ?_, ?_, ?_, ho3⟩
    · rw [ho0, expectDot_inv s0 t0 hd0]
    · rw [ho1, expectDot_inv s1 t1 hd1]
    · rw [ho2, expectDot_inv s2 t2 hd2]
  · rw [if_neg hs3] at h
    exact absurd h (by simp)

theorem parseIpv4_unique (l l' : Str) (q : Nat × Nat × Nat × Nat)
    (h : parseIpv4 l = some q) (h' : parseIpv4 l' = some q) : l = l' := by
  obtain ⟨a, b, c, d⟩ := q
  obtain ⟨r0, r1, r2, ho0, ho1, ho2, ho3⟩ := parseIpv4_inv l a b c d h
  obtain ⟨r0', r1', r2', ho0', ho1', ho2', ho3'⟩ := parseIpv4_inv l' a b c d h'
  have e2 : r2 = r2' := parseOctet_unique r2 r2' d [] ho3 ho3'
  subst e2
  have e1 : r1 = r1' := parseOctet_unique r1 r1' c ('.' :: r2) ho2 ho2'
  subst e1
  have e0 : r0 = r0' := parseOctet_unique r0 r0' b ('.' :: r1) ho1 ho1'
  subst e0
  exact parseOctet_unique l l' a ('.' :: r0) ho0 ho0'

theorem splitOnChar_no_sep (sep : Char) (l : Str) (h : sep ∉ l) :
    splitOnChar sep l = [l] := by
  induction l with
  | nil => rfl
  | cons c t ih =>
    rw [splitOnChar]
    have hc : ¬ c = sep := fun hc => h (by rw [hc]; simp)
    rw [if_neg hc, ih (fun hm => h (List.mem_cons_of_mem _ hm))]

theorem parseGroupsTail_single (p : Str) (gs : List Nat)
    (h : parseGroupsTail [p] = some gs) : gs.length ≤ 2 := by
  rw [parseGroupsTail] at h
  cases hx : parseHexGroup p with
  | some v =>
    rw [hx] at h
    simp only [Option.some_inj] at h
    rw [← h]
    simp
  | none =>
    rw [hx] at h
    cases hi : parseIpv4 p with
    | some q =>
      obtain ⟨a, b, c, d⟩ := q
      rw [hi] at h
      simp only [Option.some_inj] at h
      rw [← h]
      simp
    | none => rw [hi] at h; exact absurd h (by simp)

theorem isPrefixOf_dcolon (l : Str) (h : List.isPrefixOf [':', ':'] l = true) : ':' ∈ l := by
  cases l with
  | nil => simp [List.isPrefixOf] at h
  | cons c t =>
    simp only [List.isPrefixOf, Bool.and_eq_true, beq_iff_eq] at h
    rw [← h.1]
    simp

theorem findSub_dcolon_mem (l : Str) (i : Nat) (h : findSub [':', ':'] l = some i) :
    ':' ∈ l := by
  induction l generalizing i with
  | nil => simp [findSub, List.isPrefixOf] at h
  | cons c t ih =>
    rw [findSub] at h
    by_cases hp : List.isPrefixOf [':', ':'] (c :: t) = true
    · exact isPrefixOf_dcolon _ hp
    · rw [if_neg hp] at h
      simp only [Option.map_eq_some'] at h
      obtain ⟨j, hj, _⟩ := h
      exact List.mem_cons_of_mem _ (ih j hj)

theorem parseIpv6_colon (l : Str) (gs : List Nat) (h : parseIpv6 l = some gs) : ':' ∈ l := by
  unfold parseIpv6 at h
  split at h
  next hfind =>
    by_contra hmem
    rw [splitOnChar_no_sep ':' l hmem] at h
    split at h
    next gs' ht =>
      have hlen := parseGroupsTail_single l gs' ht
      have h8 : ¬ gs'.length = 8 := by omega
      rw [if_neg h8] at h
      exact absurd h (by simp)
    next => exact absurd h (by simp)
  next i hfind => exact findSub_dcolon_mem l i hfind

theorem parseIpAddr_v4 (l : Str) (a b c d : Nat)
    (h : parseIpAddr l = some (RsIp.v4 a b c d)) : parseIpv4 l = some (a, b, c, d) := by
  unfold parseIpAddr at h
  cases hp : parseIpv4 l with
  | none =>
    rw [hp] at h
    simp only [Option.map_eq_some'] at h
    obtain ⟨g, _, hg⟩ := h
    exact absurd hg (by simp)
  | some q =>
    obtain ⟨a', b', c', d'⟩ := q
    rw [hp] at h
    simp only [Option.some_inj, RsIp.v4.injEq] at h
    obtain ⟨rfl, rfl, rfl, rfl⟩ := h
    simp [hp]

theorem parseIpAddr_v6 (l : Str) (g : List Nat)
    (h : parseIpAddr l = some (RsIp.v6 g)) : parseIpv6 l = some g := by
  unfold parseIpAddr at h
  cases hp : parseIpv4 l with
  | none =>
    rw [hp] at h
    simp only [Option.map_eq_some'] at h
    obtain ⟨g', hg', hg⟩ := h
    simp only [RsIp.v6.injEq] at hg
    rw [← hg]
    exact hg'
  | some q =>
    obtain ⟨a', b', c', d'⟩ := q
    rw [hp] at h
    simp at h

theorem cmpConn_eq_ip (a b : Str) (x y : RsIp) (ha : parseIpAddr a = some x)
    (hb : parseIpAddr b = some y) : cmpConn a b = cmpIp x y := by
  unfold cmpConn
  rw [ha, hb]

theorem cmpConn_eq_str_left (a b : Str) (ha : parseIpAddr a = none) :
    cmpConn a b = strCmp a b := by
  unfold cmpConn
  rw [ha]

theorem cmpConn_eq_str_right (a b : Str) (hb : parseIpAddr b = none) :
    cmpConn a b = strCmp a b := by
  unfold cmpConn
  rw [hb]
  cases parseIpAddr a <;> rfl

/-- The per-iteration active list handed to the View Model, sorted with the
comparator of src/main.rs:211-216. -/
def sortedConnections (active : List Str) : List Str := sortBy cmpConn active

/-- The ordering claimed by the spec for adjacent rendered endpoints: IP
order when both parse, with ties broken lexicographically; lexicographic
otherwise. -/
def claimOrder (a b : Str) : Prop :=
  match parseIpAddr a, parseIpAddr b with
  | some x, some y => cmpIp x y = Ordering.lt ∨ (x = y ∧ strCmp a b ≠ Ordering.gt)
  | _, _ => strCmp a b ≠ Ordering.gt

theorem claimOrder_of_ip (a b : Str) (x y : RsIp) (ha : parseIpAddr a = some x)
    (hb : parseIpAddr b = some y)
    (h : cmpIp x y = Ordering.lt ∨ (x = y ∧ strCmp a b ≠ Ordering.gt)) : claimOrder a b := by
  unfold claimOrder
  rw [ha, hb]
  exact h

theorem claimOrder_of_str_left (a b : Str) (ha : parseIpAddr a = none)
    (h : strCmp a b ≠ Ordering.gt) : claimOrder a b := by
  unfold claimOrder
  rw [ha]
  exact h

theorem claimOrder_of_str_right (a b : Str) (hb : parseIpAddr b = none)
    (h : strCmp a b ≠ Ordering.gt) : claimOrder a b := by
  unfold claimOrder
  rw [hb]
  cases parseIpAddr a <;> exact h

/-- C5: for every extracted set, every adjacent pair of the emitted
`sorted_connections` satisfies the claimed order: compared as IP addresses
when both endpoints parse (ties broken lexicographically), and compared
lexicographically otherwise. -/
theorem sorted_connections_order (text : Str) :
    List.Chain' claimOrder (sortedConnections ((extract text).dedup)) := by
  unfold sortedConnections
  have hchain := sortBy_chain cmpConn cmpConn_swap ((extract text).dedup)
  have hperm := sortBy_perm cmpConn ((extract text).dedup)
  have hnodup : (sortBy cmpConn ((extract text).dedup)).Nodup :=
    (List.Perm.nodup_iff hperm).mpr (List.nodup_dedup _)
  have hchainNe : List.Chain' (fun a b : Str => a ≠ b) (sortBy cmpConn ((extract text).dedup)) :=
    List.Pairwise.chain' hnodup
  have hcomb := chain'_and_of _ hchain hchainNe
  refine chain'_imp_mem _ ?_ hcomb
  rintro x y hx hy ⟨hle, hne⟩
  have hxe : x ∈ extract text := List.mem_dedup.mp (hperm.mem_iff.mp hx)
  have hye : y ∈ extract text := List.mem_dedup.mp (hperm.mem_iff.mp hy)
  have hnc : ∀ z, z ∈ extract text → ':' ∉ z := by
    intro z hz
    obtain ⟨line, _, hline⟩ := List.mem_filterMap.mp hz
    exact (lineEndpoint_some line z hline).1
  cases hpx : parseIpAddr x with
  | none =>
    apply claimOrder_of_str_left x y hpx
    rw [← cmpConn_eq_str_left x y hpx]
    exact hle
  | some a =>
    cases hpy : parseIpAddr y with
    | none =>
      apply claimOrder_of_str_right x y hpy
      rw [← cmpConn_eq_str_right x y hpy]
      exact hle
    | some b =>
      apply claimOrder_of_ip x y a b hpx hpy
      rw [cmpConn_eq_ip x y a b hpx hpy] at hle
      cases hcmp : cmpIp a b with
      | lt => exact Or.inl rfl
      | gt => exact absurd hcmp hle
      | eq =>
        exfalso
        have hab : a = b := cmpIp_eq a b hcmp
        subst hab
        cases a with
        | v4 p q r s =>
          have h1 := parseIpAddr_v4 x p q r s hpx
          have h2 := parseIpAddr_v4 y p q r s hpy
          exact hne (parseIpv4_unique x y (p, q, r, s) h1 h2)
        | v6 g =>
          have h1 := parseIpAddr_v6 x g hpx
          exact hnc x hxe (parseIpv6_colon x g h1)

/-- Model of Rust `str::trim`: remove leading and trailing whitespace. -/
def trim (l : Str) : Str :=
  ((l.dropWhile isRustWhitespace).reverse.dropWhile isRustWhitespace).reverse

/-- The messages sent from the Poller thread (enum `BackgroundEvent`,
src/main.rs:38-45). -/
inductive BackgroundEvent
  | DataUpdate (active : List Str) (new_history_entries : List Str) (pid_msg : Str)
  | Error (msg : Str)
deriving DecidableEq

/-- The `"Waiting for process '<target>'..."` message (src/main.rs:227). -/
def waitingMsg (target : Str) : Str := str "Waiting for process '" ++ target ++ str "'..."

/-- The socket-tool stage of one poll iteration (src/main.rs:171-225): invoke
lsof with the pid; on failure emit an LSOF error, otherwise extract, announce
and emit the data update. -/
def lsofStage (announced : List Str) (lsofRes : Str → Except Str Str) (ts pid : Str) :
    BackgroundEvent × List Str :=
  match lsofRes pid with
  | Except.error e => (BackgroundEvent.Error (str "LSOF Error: " ++ e), announced)
  | Except.ok out =>
    let cands := extract out
    let p := announceFold ts announced cands
    (BackgroundEvent.DataUpdate (sortedConnections cands.dedup) p.2
      (str "Monitoring PID: " ++ pid), p.1)

/-- The pgrep-success stage of one poll iteration (src/main.rs:166-228):
take the FIRST line of pgrep's stdout (trimmed) as the pid and run the
socket-tool stage; emit the Waiting message only when there is no line at
all. -/
def pgrepOkStage (target : Str) (announced : List Str)
    (lsofRes : Str → Except Str Str) (ts out : Str) : BackgroundEvent × List Str :=
  match rustLines out with
  | [] => (BackgroundEvent.Error (waitingMsg target), announced)
  | pidLine :: _ => lsofStage announced lsofRes ts (trim pidLine)

/-- One iteration of the Poller loop (src/main.rs:160-237), dispatching on
the pgrep invocation result. -/
def pollIteration (target : Str) (announced : List Str) (pgrepRes : Except Str Str)
    (lsofRes : Str → Except Str Str) (ts : Str) : BackgroundEvent × List Str :=
  match pgrepRes with
  | Except.error e => (BackgroundEvent.Error (str "PGREP Error: " ++ e), announced)
  | Except.ok out => pgrepOkStage target announced lsofRes ts out

/-- C7 counterexample: on pgrep stdout `"\n123\n"` the Poller uses the first
line `""` (not the first non-empty line `"123"`) as the PID, and on stdout
`"\n"` (which has no non-empty line) it does NOT emit the Waiting message. -/
theorem c7_counterexample :
    (pollIteration (str "tgt") [] (Except.ok (str "\n123\n"))
        (fun _ => Except.ok (str "HDR")) (str "12:00:00")).1 =
      BackgroundEvent.DataUpdate [] [] (str "Monitoring PID: ") ∧
      str "Monitoring PID: " ≠ str "Monitoring PID: 123" ∧
      (pollIteration (str "tgt") [] (Except.ok (str "\n"))
          (fun _ => Except.ok (str "HDR")) (str "12:00:00")).1 ≠
        BackgroundEvent.Error (waitingMsg (str "tgt")) := by
  refine ⟨by decide, by decide, by decide⟩

/-- C7 (amended): for every pgrep stdout text, the Poller takes the FIRST
line (not the first non-empty line), trimmed, as the PID string and proceeds
to the socket-tool stage with it; the `"Waiting for process '<target>'..."`
error is emitted if and only if the stdout has no line at all. -/
theorem pid_selection (target : Str) (announced : List Str)
    (lsofRes : Str → Except Str Str) (ts out : Str) :
    ((pollIteration target announced (Except.ok out) lsofRes ts).1 =
        BackgroundEvent.Error (waitingMsg target) ↔ rustLines out = []) ∧
      ∀ l rest, rustLines out = l :: rest →
        pollIteration target announced (Except.ok out) lsofRes ts =
          lsofStage announced lsofRes ts (trim l) := by
  constructor
  · constructor
    · intro hev
      have hred : pollIteration target announced (Except.ok out) lsofRes ts =
          pgrepOkStage target announced lsofRes ts out := rfl
      rw [hred] at hev
      unfold pgrepOkStage at hev
      split at hev
      next heq => exact heq
      next pidLine rest heq =>
        exfalso
        unfold lsofStage at hev
        split at hev
        next e hml =>
          simp only [BackgroundEvent.Error.injEq] at hev
          have hhead := congrArg List.head? hev
          simp [waitingMsg, str] at hhead
        next out2 hml =>
          simp at hev
    · intro hnil
      have hred : pollIteration target announced (Except.ok out) lsofRes ts =
          pgrepOkStage target announced lsofRes ts out := rfl
      rw [hred]
      unfold pgrepOkStage
      rw [hnil]
  · intro l rest hl
    have hred : pollIteration target announced (Except.ok out) lsofRes ts =
        pgrepOkStage target announced lsofRes ts out := rfl
    rw [hred]
    unfold pgrepOkStage
    rw [hl]

theorem pid_selection_witness :
    (pollIteration (str "t") [] (Except.ok (str "77\n"))
        (fun pid => Except.error pid) (str "tm") =
      lsofStage [] (fun pid => Except.error pid) (str "tm") (trim (str "77"))) ∧
      (pollIteration (str "t") [] (Except.ok (str ""))
          (fun pid => Except.error pid) (str "tm")).1 =
        BackgroundEvent.Error (waitingMsg (str "t")) :=
  ⟨(pid_selection (str "t") [] (fun pid => Except.error pid) (str "tm") (str "77\n")).2
      (str "77") [] (by decide),
    (pid_selection (str "t") [] (fun pid => Except.error pid) (str "tm") (str "")).1.mpr
      (by decide)⟩
